import Mathlib

/-!
Shallow embedding of the event-log filtering core of the
Steam-Achievement-Process-Miner repository (Filters.py, Utils.py,
Analysis.py, Models/Game.py).

An event is an activity name, a timestamp (an abstract instant, modelled
as a natural number) and a case id; a trace is the ordered list of its
events; an event log is the ordered list of its traces.  All events of a
trace carry the trace's case id, mirroring the data model in which the
event stream tags every event with the case id of its trace.
-/

structure Event where
  activity : String
  timestamp : Nat
  caseId : String
deriving DecidableEq, Repr

abbrev Trace := List Event

abbrev EventLog := List Trace

/-- Mirrors the game enumeration of Models/Game.py. -/
inductive Game where
  | GRIS
  | HADES
  | PER_ASPERA
  | BLACK_MIRROR
  | TIS_100
  | FRIDAY_THE_13TH
  | OXYGEN_NOT_INCLUDED
  | WITCHER_3
deriving DecidableEq, Repr

/-- Mirrors the `end_achievement` property of Models/Game.py; the final
else-branch returns the empty string, which is hit by FRIDAY_THE_13TH. -/
def Game.end_achievement : Game → String
  | .GRIS => "The End"
  | .HADES => "The Family Secret"
  | .PER_ASPERA => "Terraformer V"
  | .BLACK_MIRROR => "Chapter V completed"
  | .TIS_100 => "100_PERCENT_V1"
  | .WITCHER_3 => "Passed the Trial"
  | .OXYGEN_NOT_INCLUDED => "Home Sweet Home"
  | .FRIDAY_THE_13TH => ""

/-- Mirrors the `main_achievements` property of Models/Game.py; the final
else-branch returns the empty list (TIS_100, FRIDAY_THE_13TH,
OXYGEN_NOT_INCLUDED). -/
def Game.main_achievements : Game → List String
  | .GRIS => ["Red", "Green", "Blue", "Yellow", "The End"]
  | .HADES => ["Escaped Tartarus", "Escaped Asphodel", "Escaped Elysium",
               "Is There No Escape?", "The Family Secret"]
  | .PER_ASPERA => ["Terraformer I", "Terraformer II", "Terraformer III",
                    "Terraformer IV", "Terraformer V"]
  | .BLACK_MIRROR => ["Chapter I completed", "Chapter II completed", "Chapter III completed",
                      "Chapter IV completed", "Chapter V completed"]
  | .WITCHER_3 => ["Lilac and Gooseberries", "Family Counselor", "A Friend in Need",
                   "Necromancer", "Something More", "Xenonaut", "The King is Dead",
                   "Passed the Trial"]
  | _ => []

/-- Does some event of the trace carry the given activity name. -/
def containsActivity (t : Trace) (a : String) : Bool :=
  t.any (fun ev => decide (ev.activity = a))

/-- Modelled from the spec: pm4py `attributes_filter.apply` at trace level
keeps, for `finished = true`, the traces containing at least one event whose
activity equals the game's end achievement, and for `finished = false` the
traces containing no such event (spec section 4.3).  Mirrors
`filter_players_by_game_completion` in Filters.py, which calls that filter on
the one-element list `[game.end_achievement]` with POSITIVE set to
`finished`. -/
def filter_players_by_game_completion (log : EventLog) (g : Game) (finished : Bool) : EventLog :=
  log.filter (fun t => containsActivity t g.end_achievement == finished)

/-- Modelled from the spec: pm4py `attributes_filter.apply_events` keeps
(`positive = true`) or drops (`positive = false`) single events by activity
membership, retaining every trace, possibly emptied, in its place (spec
section 4.2).  This is the event-level membership filter behind
`filter_main_achievements` and `filter_events_by_common_achievements` in
Filters.py. -/
def filter_by_activities (log : EventLog) (allowed : List String) (positive : Bool) : EventLog :=
  log.map (fun t => t.filter (fun ev => decide (ev.activity ∈ allowed) == positive))

/-- Mirrors `filter_main_achievements` in Filters.py: event-level membership
filtering on the game's main achievements. -/
def filter_main_achievements (log : EventLog) (g : Game) : EventLog :=
  filter_by_activities log g.main_achievements true

/-- Mirrors `log_difference` in Utils.py: keep the traces of `a` that have no
value-equal counterpart in `b`, in the order of `a` (the source builds the
result by appending the surviving traces of `a` in a loop, which is exactly a
stable filter). -/
def log_difference (a b : EventLog) : EventLog :=
  a.filter (fun t => decide (t ∉ b))

/-- Mirrors `filter_achievements_by_date` in Filters.py.  The sub-log of
traces intersecting the forbidden early interval is produced by the external
pm4py `timestamp_filter`; it is taken here as the argument `incorrect`, and
the function subtracts it from the original log. -/
def filter_achievements_by_date (log incorrect : EventLog) : EventLog :=
  log_difference log incorrect

/-- Mirrors the per-trace scan of `filter_incorrect_traces` in Filters.py
(lines 292 to 307): `count` is the running index into `main` and `seen` holds
the timestamps of the main achievements already matched.  Python evaluates
the index access before anything else and raises IndexError when `count` runs
past the end of `main` (modelled by `none`); `some false` means the trace is
discarded, `some true` that it is kept. -/
def checkMainOrder (main : List String) : List Event → Nat → List Nat → Option Bool
  | [], _, _ => some true
  | ev :: rest, count, seen =>
    if ev.activity ∈ main then
      match main.get? count with
      | none => none
      | some expected =>
        if ev.activity ≠ expected ∨ ev.timestamp ∈ seen then some false
        else checkMainOrder main rest (count + 1) (ev.timestamp :: seen)
    else checkMainOrder main rest count seen

/-- Mirrors `filter_incorrect_traces` in Filters.py: the source iterates over
the traces, runs the scan, and appends the trace when it was not discarded;
an IndexError raised inside the scan aborts the whole call (modelled by
`none`).  The source reads only `game.main_achievements`, taken here as the
parameter `main`. -/
def filter_incorrect_traces : EventLog → List String → Option EventLog
  | [], _ => some []
  | t :: rest, main =>
    match checkMainOrder main t 0 [] with
    | none => none
    | some keep =>
      (filter_incorrect_traces rest main).map (fun r => if keep then t :: r else r)

/-- Mirrors the cheating test of `filter_cheating_players` in Filters.py: the
set of distinct timestamps of the trace has exactly one element and the trace
length is not one. -/
def isCheatingTrace (t : Trace) : Bool :=
  ((t.map Event.timestamp).dedup.length == 1) && (t.length != 1)

/-- Mirrors `filter_cheating_players` in Filters.py: keep the traces whose
cheating flag equals `keep_cheating`. -/
def filter_cheating_players (log : EventLog) (keep_cheating : Bool) : EventLog :=
  log.filter (fun t => isCheatingTrace t == keep_cheating)

/-- Mirrors the dictionary build of `filter_achievements_by_first_playthrough`
(Filters.py lines 83 to 89): the event stream is traversed in order and each
end-achievement event overwrites the recorded timestamp of its case.  The
entry found first in this association list is the one written last. -/
def buildEndTimes (endAch : String) (stream : List Event) : List (String × Nat) :=
  stream.foldl
    (fun m ev => if ev.activity = endAch then (ev.caseId, ev.timestamp) :: m else m) []

/-- Mirrors the stream filtering of `filter_achievements_by_first_playthrough`
(Filters.py lines 91 and 92): an event is kept when its timestamp is at most
the recorded end timestamp of its case; a case with no recorded timestamp
raises KeyError (modelled by `none`). -/
def keepBeforeEnd (m : List (String × Nat)) : List Event → Option (List Event)
  | [] => some []
  | ev :: rest =>
    match List.lookup ev.caseId m with
    | none => none
    | some tEnd =>
      (keepBeforeEnd m rest).map (fun r => if ev.timestamp ≤ tEnd then ev :: r else r)

/-- Mirrors `filter_achievements_by_first_playthrough` in Filters.py at the
event-stream level: the log is flattened to its event stream (each event
already carries its case id in this model), the per-case end timestamps are
recorded, and the stream is filtered.  The final regrouping of the surviving
events into traces by case id is the external stream-to-log conversion and is
not re-modelled; the claims concern which events survive. -/
def filter_achievements_by_first_playthrough (log : EventLog) (endAch : String) :
    Option (List Event) :=
  keepBeforeEnd (buildEndTimes endAch log.flatten) log.flatten

/-- The timestamp of the last end-achievement event of a case in the stream;
this is the value the overwriting dictionary build leaves recorded. -/
def lastEndTimestamp (endAch : String) (stream : List Event) (c : String) : Option Nat :=
  ((stream.filter (fun ev => decide (ev.activity = endAch ∧ ev.caseId = c))).getLast?).map
    Event.timestamp

/-- Mirrors `filter_log_by_trace_fitness` in Filters.py: the source loops over
the indices of the log and reads the replay result at the same index, keeping
the trace when its `trace_is_fit` flag is true.  Reading past the end of the
result list raises IndexError (modelled by `none`); surplus result entries
are never read. -/
def filter_log_by_trace_fitness : EventLog → List Bool → Option EventLog
  | [], _ => some []
  | _ :: _, [] => none
  | t :: rest, b :: bs =>
    (filter_log_by_trace_fitness rest bs).map (fun r => if b then t :: r else r)

/-- Case id of a trace: in the data model every event of a trace carries the
trace's case id, so the first event's case id is the trace attribute read by
the source. -/
def traceCaseId (t : Trace) : Option String :=
  t.head?.map Event.caseId

/-- Mirrors `filter_players_by_reviews` in Filters.py: the player-stats file
is modelled as an association list from case id to the
`left_positive_review` flag; a case id with no entry raises KeyError
(modelled by `none`). -/
def filter_players_by_reviews : EventLog → List (String × Bool) → Bool → Option EventLog
  | [], _, _ => some []
  | t :: rest, stats, keepPositive =>
    match traceCaseId t with
    | none => none
    | some c =>
      match List.lookup c stats with
      | none => none
      | some b =>
        (filter_players_by_reviews rest stats keepPositive).map
          (fun r => if b == keepPositive then t :: r else r)

/-- The fixed allow-list hardcoded in `filter_achievements_by_level`
(Filters.py lines 224 and 225). -/
def levelAllowList : List String :=
  ["Terraformer IV", "Off The Hook", "We are immortal!",
   "Doom Importer", "Magnetic Personality", "Terraformer V"]

/-- Mirrors the per-trace loop of `filter_achievements_by_level` (Filters.py
lines 217 to 229): `add` becomes true at the first occurrence of the start
achievement (that event included); an event is kept when `add` holds and its
activity is in the allow-list; the scan stops after processing the first
occurrence of the end achievement. -/
def levelWindowKeep (s e : String) : List Event → Bool → List Event
  | [], _ => []
  | ev :: rest, add =>
    let add2 := add || decide (ev.activity = s)
    let here := if add2 && decide (ev.activity ∈ levelAllowList) then [ev] else []
    if ev.activity = e then here else here ++ levelWindowKeep s e rest add2

/-- The included window of the level scan: the events from the first
occurrence of the start achievement up to and including the first occurrence
of the end achievement. -/
def levelWindow (s e : String) : List Event → Bool → List Event
  | [], _ => []
  | ev :: rest, add =>
    let add2 := add || decide (ev.activity = s)
    let here := if add2 then [ev] else []
    if ev.activity = e then here else here ++ levelWindow s e rest add2

/-- Mirrors `filter_achievements_by_level` in Filters.py: every input trace
produces exactly one output trace, appended in input order; the CSV dump of
the result is external output and is not modelled. -/
def filter_achievements_by_level (log : EventLog) (s e : String) : EventLog :=
  log.map (fun t => levelWindowKeep s e t false)

/-- Mirrors the peeling loop of `divide_unfinished_players_by_levels`
(Analysis.py lines 198 to 223) restricted to the player counts: for each
level boundary the traces not containing the next main achievement are
counted under the key of the current main achievement and then removed from
the running log by `log_difference`.  The review joins only decorate the
recorded entries and do not influence the counts. -/
def peelLevels : List String → EventLog → List (String × Nat)
  | m0 :: m1 :: rest, cur =>
    let lvl := cur.filter (fun t => !(containsActivity t m1))
    (m0, lvl.length) :: peelLevels (m1 :: rest) (log_difference cur lvl)
  | _, _ => []

/-- Mirrors `divide_unfinished_players_by_levels` in Analysis.py: the input
log is restricted to unfinished players, then (modelled from the spec,
section 4.11, describing the parameterless pm4py trace-level
`attributes_filter.apply`) to traces containing at least one main
achievement; the result pairs the list of per-level player counts with
`total_num_players`, the size of that unfinished progress log. -/
def divide_unfinished_players_by_levels (log : EventLog) (g : Game) :
    List (String × Nat) × Nat :=
  let unfinished := filter_players_by_game_completion log g false
  let progress :=
    unfinished.filter (fun t => t.any (fun ev => decide (ev.activity ∈ g.main_achievements)))
  (peelLevels g.main_achievements progress, progress.length)

/-- Written from the words of claim C1 and spec section 4.4: among the events
of the trace whose activity is in `main`, taken in trace order, the k-th
one's activity is the k-th entry of `main` and its timestamp differs from
the timestamps of all earlier such events. -/
def incorrectTraceSpecKeep (main : List String) (t : Trace) : Bool :=
  let cs := t.filter (fun ev => decide (ev.activity ∈ main))
  (List.range cs.length).all (fun k =>
    decide ((cs.get? k).map Event.activity = main.get? k) &&
    (List.range k).all (fun j =>
      decide ((cs.get? j).map Event.timestamp ≠ (cs.get? k).map Event.timestamp)))

/-- Written from the words of claim C2: a trace is cheating when its set of
distinct timestamps has exactly one element and it has more than one
event. -/
def cheatingSpec (t : Trace) : Bool :=
  ((t.map Event.timestamp).dedup.length == 1) && decide (1 < t.length)

/-! Sample concrete events used by witnesses and counterexamples. -/

def evA : Event := ⟨"A", 1, "c1"⟩

def evB : Event := ⟨"B", 2, "c2"⟩

/-- The cheating test of the source agrees pointwise with the spec's
formulation: the difference between `length != 1` and `1 < length` only
shows on the empty trace, where the one-distinct-timestamp test already
fails. -/
lemma isCheatingTrace_eq_cheatingSpec (t : Trace) : isCheatingTrace t = cheatingSpec t := by
  cases t with
  | nil => rfl
  | cons a rest =>
    unfold isCheatingTrace cheatingSpec
    congr 1
    cases rest <;> simp

/-- C2: `filter_cheating_players` keeps exactly the traces whose cheating
flag, in the spec's sense (one distinct timestamp and more than one event),
equals the requested boolean, and the results for true and false together
are a permutation-free partition of the log: their concatenation is a
permutation of the log, each trace surviving on exactly one side. -/
theorem c2_cheat_filter_partition (log : EventLog) (c : Bool) :
    filter_cheating_players log c = log.filter (fun t => cheatingSpec t == c) ∧
    List.Perm (filter_cheating_players log true ++ filter_cheating_players log false) log := by
  constructor
  · unfold filter_cheating_players
    exact List.filter_congr (fun t _ => by rw [isCheatingTrace_eq_cheatingSpec])
  · unfold filter_cheating_players
    have e1 : (fun t => isCheatingTrace t == true) = (fun t => isCheatingTrace t) := by
      funext t; simp
    have e2 : (fun t => isCheatingTrace t == false) = (fun t => !(isCheatingTrace t)) := by
      funext t; simp
    rw [e1, e2]
    exact List.filter_append_perm _ log

/-- C3: `log_difference` keeps exactly the traces of `a` with no value-equal
counterpart in `b`, as a stable sub-sequence of `a`; subtracting a log from
itself gives the empty log, subtracting the empty log changes nothing. -/
theorem c3_log_difference (a b : EventLog) :
    (∀ t : Trace, t ∈ log_difference a b ↔ t ∈ a ∧ t ∉ b) ∧
    (log_difference a b).Sublist a ∧
    log_difference a a = [] ∧
    log_difference a [] = a := by
  refine ⟨fun t => ?_, by unfold log_difference; exact List.filter_sublist _, ?_, ?_⟩
  · simp [log_difference]
  · simp [log_difference]
  · simp [log_difference]

/-- C6: the source has no configuration guard.  FRIDAY_THE_13TH has an empty
end achievement, yet the completion filter silently returns the empty log on
a log whose single trace has no empty-string activity, and the sequence
validator with an empty main-achievement list silently returns its input
unchanged; no error value exists in either code path. -/
theorem c6_missing_configuration_not_guarded :
    Game.FRIDAY_THE_13TH.end_achievement = "" ∧
    filter_players_by_game_completion [[evA]] Game.FRIDAY_THE_13TH true = [] ∧
    filter_incorrect_traces [[evA]] ([] : List String) = some [[evA]] := by
  decide

/-- C7 (amended): the fitness filter keeps exactly the traces at positions
whose replay flag is true, in order; a replay result shorter than the log is
fatal (IndexError), while a longer one is silently accepted, the surplus
entries being ignored. -/
theorem c7_fitness_filter_amended (log : EventLog) (bs : List Bool) :
    (bs.length < log.length → filter_log_by_trace_fitness log bs = none) ∧
    (log.length ≤ bs.length →
      filter_log_by_trace_fitness log bs =
        some (((log.zip bs).filter (fun p => p.2)).map (fun p => p.1))) := by
  induction log generalizing bs with
  | nil =>
    refine ⟨fun h => absurd h (by simp), fun _ => ?_⟩
    simp [filter_log_by_trace_fitness]
  | cons t rest ih =>
    cases bs with
    | nil => exact ⟨fun _ => rfl, fun h => absurd h (by simp)⟩
    | cons b bs2 =>
      constructor
      · intro h
        have h2 := (ih bs2).1 (by simpa using h)
        simp [filter_log_by_trace_fitness, h2]
      · intro h
        have h2 := (ih bs2).2 (by simpa using h)
        simp [filter_log_by_trace_fitness, h2, List.filter_cons]
        cases b <;> simp

/-- C7 counterexample to the claim as stated: a replay result strictly longer
than the log (lengths 2 versus 1) is not fatal; the call returns an ordinary
filtered log. -/
theorem c7_counterexample :
    ([[evA]] : EventLog).length = 1 ∧ ([true, true] : List Bool).length = 2 ∧
    filter_log_by_trace_fitness [[evA]] [true, true] = some [[evA]] := by
  decide

/-- Concrete instance of the amended C7: a shorter result list is fatal, an
equal-length one filters by the flags. -/
theorem c7_fitness_filter_amended_witness :
    filter_log_by_trace_fitness [[evA], [evB]] [true] = none ∧
    filter_log_by_trace_fitness [[evA], [evB]] [true, false] = some [[evA]] := by
  constructor
  · exact (c7_fitness_filter_amended [[evA], [evB]] [true]).1 (by decide)
  · exact ((c7_fitness_filter_amended [[evA], [evB]] [true, false]).2 (by decide)).trans
      (by decide)

/-- Filtering a one-or-zero element conditional list. -/
lemma filter_if_single (p : Event → Bool) (b : Bool) (ev : Event) :
    (if b = true then [ev] else []).filter p =
      if (b && p ev) = true then [ev] else [] := by
  cases b <;> cases h : p ev <;> simp [h]

/-- The kept events of the level scan are exactly the allow-listed events of
the included window. -/
lemma levelWindowKeep_eq_filter (s e : String) :
    ∀ (t : List Event) (add : Bool),
      levelWindowKeep s e t add =
        (levelWindow s e t add).filter (fun ev => decide (ev.activity ∈ levelAllowList)) := by
  intro t
  induction t with
  | nil => intro add; rfl
  | cons ev rest ih =>
    intro add
    by_cases he : ev.activity = e <;>
      simp only [levelWindowKeep, levelWindow, he, if_true, if_false, List.filter_append,
        filter_if_single, ih]

/-- C10: the level-window filter returns one output trace per input trace, in
the same order (the log lengths agree and the i-th output is computed from the
i-th input); a trace whose included window holds no allow-listed event
becomes the empty trace and is kept, never dropped. -/
theorem c10_level_filter_per_trace (log : EventLog) (s e : String) :
    (filter_achievements_by_level log s e).length = log.length ∧
    (∀ i : Nat, (filter_achievements_by_level log s e).get? i =
      (log.get? i).map (fun t => levelWindowKeep s e t false)) ∧
    (∀ t : Trace, (∀ ev ∈ levelWindow s e t false, ev.activity ∉ levelAllowList) →
      levelWindowKeep s e t false = []) := by
  refine ⟨by simp [filter_achievements_by_level], fun i => ?_, fun t h => ?_⟩
  · simp [filter_achievements_by_level, List.get?_map]
  · rw [levelWindowKeep_eq_filter]
    exact List.filter_eq_nil.mpr (fun ev hev => by simpa using h ev hev)

/-- Concrete instance of C10: a two-trace log keeps both traces, and a trace
with no allow-listed activity is reduced to the kept empty trace. -/
theorem c10_level_filter_witness :
    (filter_achievements_by_level [[evA], [evB]] "A" "B").length = 2 ∧
    levelWindowKeep "A" "B" [evA] false = [] := by
  constructor
  · exact (c10_level_filter_per_trace [[evA], [evB]] "A" "B").1.trans (by decide)
  · exact (c10_level_filter_per_trace [[evA], [evB]] "A" "B").2.2 [evA] (by decide)

/-- When the sequence validator returns a log, that log is a sub-sequence of
its input. -/
lemma filter_incorrect_traces_sublist :
    ∀ (log : EventLog) (main : List String) (r : EventLog),
      filter_incorrect_traces log main = some r → r.Sublist log := by
  intro log
  induction log with
  | nil =>
    intro main r h
    simp [filter_incorrect_traces] at h
    simp [← h]
  | cons t rest ih =>
    intro main r h
    unfold filter_incorrect_traces at h
    cases hc : checkMainOrder main t 0 [] with
    | none => rw [hc] at h; exact absurd h (by simp)
    | some keep =>
      rw [hc] at h
      cases hr : filter_incorrect_traces rest main with
      | none => rw [hr] at h; exact absurd h (by simp)
      | some r0 =>
        rw [hr] at h
        simp at h
        subst h
        cases keep with
        | true => simpa using List.Sublist.cons₂ t (ih main r0 hr)
        | false => simpa using List.Sublist.cons t (ih main r0 hr)

/-- When the fitness filter returns a log, that log is a sub-sequence of its
input. -/
lemma filter_log_by_trace_fitness_sublist :
    ∀ (log : EventLog) (bs : List Bool) (r : EventLog),
      filter_log_by_trace_fitness log bs = some r → r.Sublist log := by
  intro log
  induction log with
  | nil =>
    intro bs r h
    simp [filter_log_by_trace_fitness] at h
    simp [← h]
  | cons t rest ih =>
    intro bs r h
    cases bs with
    | nil => exact absurd h (by simp [filter_log_by_trace_fitness])
    | cons b bs2 =>
      unfold filter_log_by_trace_fitness at h
      cases hr : filter_log_by_trace_fitness rest bs2 with
      | none => rw [hr] at h; exact absurd h (by simp)
      | some r0 =>
        rw [hr] at h
        simp at h
        subst h
        cases b with
        | true => simpa using List.Sublist.cons₂ t (ih bs2 r0 hr)
        | false => simpa using List.Sublist.cons t (ih bs2 r0 hr)

/-- When the review filter returns a log, that log is a sub-sequence of its
input. -/
lemma filter_players_by_reviews_sublist :
    ∀ (log : EventLog) (stats : List (String × Bool)) (kp : Bool) (r : EventLog),
      filter_players_by_reviews log stats kp = some r → r.Sublist log := by
  intro log
  induction log with
  | nil =>
    intro stats kp r h
    simp [filter_players_by_reviews] at h
    simp [← h]
  | cons t rest ih =>
    intro stats kp r h
    unfold filter_players_by_reviews at h
    split at h
    · exact absurd h (by simp)
    · split at h
      · exact absurd h (by simp)
      · rename_i bflag hl
        cases hr : filter_players_by_reviews rest stats kp with
        | none => rw [hr] at h; exact absurd h (by simp)
        | some r0 =>
          rw [hr] at h
          simp at h
          subst h
          by_cases hb : bflag = kp
          · simpa [hb] using List.Sublist.cons₂ t (ih stats kp r0 hr)
          · simpa [hb] using List.Sublist.cons t (ih stats kp r0 hr)

/-- C8: every core filter is stable.  The trace-dropping filters return a
sub-sequence of their input log (also on the success path of the fallible
ones), and the event-level filters return one trace per input trace at the
same position. -/
theorem c8_filters_are_stable (log a b inc : EventLog) (g : Game) (f c positive kp : Bool)
    (main allowed : List String) (bs : List Bool) (stats : List (String × Bool))
    (s e : String) :
    (filter_players_by_game_completion log g f).Sublist log ∧
    (filter_cheating_players log c).Sublist log ∧
    (log_difference a b).Sublist a ∧
    (filter_achievements_by_date log inc).Sublist log ∧
    (∀ r : EventLog, filter_incorrect_traces log main = some r → r.Sublist log) ∧
    (∀ r : EventLog, filter_log_by_trace_fitness log bs = some r → r.Sublist log) ∧
    (∀ r : EventLog, filter_players_by_reviews log stats kp = some r → r.Sublist log) ∧
    ((filter_by_activities log allowed positive).length = log.length ∧
      ∀ i : Nat, (filter_by_activities log allowed positive).get? i =
        (log.get? i).map
          (fun t => t.filter (fun ev => decide (ev.activity ∈ allowed) == positive))) ∧
    ((filter_achievements_by_level log s e).length = log.length ∧
      ∀ i : Nat, (filter_achievements_by_level log s e).get? i =
        (log.get? i).map (fun t => levelWindowKeep s e t false)) := by
  refine ⟨?_, ?_, ?_, ?_, fun r h => filter_incorrect_traces_sublist log main r h,
    fun r h => filter_log_by_trace_fitness_sublist log bs r h,
    fun r h => filter_players_by_reviews_sublist log stats kp r h,
    ⟨by simp [filter_by_activities], fun i => by simp [filter_by_activities, List.get?_map]⟩,
    ⟨by simp [filter_achievements_by_level],
      fun i => by simp [filter_achievements_by_level, List.get?_map]⟩⟩
  · unfold filter_players_by_game_completion
    exact List.filter_sublist _
  · unfold filter_cheating_players
    exact List.filter_sublist _
  · unfold log_difference
    exact List.filter_sublist _
  · unfold filter_achievements_by_date log_difference
    exact List.filter_sublist _

/-- Concrete instance of C8: the completion filter output is a sub-sequence,
and the three fallible filters, run on inputs where they succeed, also return
sub-sequences. -/
theorem c8_filters_are_stable_witness :
    (filter_players_by_game_completion [[evA]] Game.GRIS true).Sublist [[evA]] ∧
    ([[evA]] : EventLog).Sublist [[evA]] ∧
    ([] : EventLog).Sublist [[evA]] := by
  have h := c8_filters_are_stable [[evA]] [[evA]] [] [] Game.GRIS true true true true
    ["A"] ["A"] [false] [("c1", false)] "A" "B"
  exact ⟨h.1, h.2.2.2.2.1 [[evA]] (by decide),
    h.2.2.2.2.2.2.1 [] (by decide)⟩

/-- Subtracting from a log the sub-log of its traces failing a predicate
leaves the traces satisfying it: `log_difference` against a filtered copy of
the same log is the complementary filter. -/
lemma log_difference_filter_self (cur : EventLog) (p : Trace → Bool) :
    log_difference cur (cur.filter p) = cur.filter (fun t => !(p t)) := by
  unfold log_difference
  apply List.filter_congr
  intro t ht
  by_cases hp : p t = true
  · simp [List.mem_filter, ht, hp]
  · simp [List.mem_filter, ht, hp]

/-- Lengths of the two complementary filters of a log add to its length. -/
lemma filter_length_add (cur : EventLog) (p : Trace → Bool) :
    (cur.filter p).length + (cur.filter (fun t => !(p t))).length = cur.length := by
  simpa using (List.filter_append_perm p cur).length_eq

/-- The peeling loop records one entry per level boundary. -/
lemma peelLevels_length :
    ∀ (ms : List String) (cur : EventLog), (peelLevels ms cur).length = ms.length - 1 := by
  intro ms
  induction ms with
  | nil => intro cur; rfl
  | cons m0 tl ih =>
    intro cur
    cases tl with
    | nil => rfl
    | cons m1 rest =>
      simp only [peelLevels, List.length_cons, ih]
      omega

/-- If every trace of the running log lacks some achievement among the
remaining peel targets, the peeling loop attributes every trace exactly once:
the level counts sum to the log size. -/
lemma peelLevels_sum :
    ∀ (ms : List String) (cur : EventLog),
      (∀ t ∈ cur, ∃ a ∈ ms.tail, containsActivity t a = false) →
      ((peelLevels ms cur).map Prod.snd).sum = cur.length := by
  intro ms
  induction ms with
  | nil =>
    intro cur h
    cases cur with
    | nil => rfl
    | cons t rest =>
      obtain ⟨a, ha, _⟩ := h t (by simp)
      exact absurd ha (by simp)
  | cons m0 tl ih =>
    intro cur h
    cases tl with
    | nil =>
      cases cur with
      | nil => rfl
      | cons t rest =>
        obtain ⟨a, ha, _⟩ := h t (by simp)
        exact absurd ha (by simp)
    | cons m1 rest =>
      have hdiff : log_difference cur (cur.filter (fun t => !(containsActivity t m1))) =
          cur.filter (fun t => containsActivity t m1) := by
        rw [log_difference_filter_self]
        apply List.filter_congr
        intro t _
        simp
      have hyp2 : ∀ t ∈ cur.filter (fun t => containsActivity t m1),
          ∃ a ∈ (m1 :: rest).tail, containsActivity t a = false := by
        intro t ht
        have htc : containsActivity t m1 = true := (List.mem_filter.mp ht).2
        obtain ⟨a, ha, hfa⟩ := h t (List.mem_filter.mp ht).1
        simp only [List.tail_cons] at ha ⊢
        rcases List.mem_cons.mp ha with rfl | ha2
        · rw [htc] at hfa
          exact absurd hfa (by simp)
        · exact ⟨a, ha2, hfa⟩
      have hrec := ih (cur.filter (fun t => containsActivity t m1)) hyp2
      simp only [peelLevels, List.map_cons, List.sum_cons, hdiff, hrec]
      have hlen := filter_length_add cur (fun t => containsActivity t m1)
      have hnn : (fun t => !(!(containsActivity t m1))) = (fun t => containsActivity t m1) := by
        funext t
        simp
      omega

/-- C4: for a game with at least two main achievements, the per-level player
counts recorded by the level partitioner sum to `total_num_players`, the size
of the unfinished progress log computed at the start, and one count is
recorded per level boundary. -/
theorem c4_level_partition_sum (g : Game) (h : 2 ≤ g.main_achievements.length)
    (log : EventLog) :
    (((divide_unfinished_players_by_levels log g).1.map Prod.snd).sum =
      (divide_unfinished_players_by_levels log g).2) ∧
    (divide_unfinished_players_by_levels log g).1.length =
      g.main_achievements.length - 1 := by
  constructor
  · unfold divide_unfinished_players_by_levels
    apply peelLevels_sum
    intro t ht
    have ht1 : t ∈ filter_players_by_game_completion log g false := (List.mem_filter.mp ht).1
    unfold filter_players_by_game_completion at ht1
    have hend : containsActivity t g.end_achievement = false := by
      simpa using (List.mem_filter.mp ht1).2
    refine ⟨g.end_achievement, ?_, hend⟩
    cases g <;> first | exact absurd h (by decide) | decide
  · unfold divide_unfinished_players_by_levels
    exact peelLevels_length _ _

def c4SampleLog : EventLog :=
  [[⟨"Red", 1, "p1"⟩], [⟨"Red", 1, "p2"⟩, ⟨"Green", 2, "p2"⟩]]

/-- Concrete instance of C4 on GRIS with two unfinished players: the recorded
counts sum to the unfinished-log size. -/
theorem c4_level_partition_sum_witness :
    2 ≤ Game.GRIS.main_achievements.length ∧
    (((divide_unfinished_players_by_levels c4SampleLog Game.GRIS).1.map Prod.snd).sum =
      (divide_unfinished_players_by_levels c4SampleLog Game.GRIS).2) :=
  ⟨by decide, (c4_level_partition_sum Game.GRIS (by decide) c4SampleLog).1⟩

/-- The source's scan replayed on the pre-filtered list of considered events:
identical automaton, but the index is read with `get?` only after the
considered event is already isolated. -/
def scanSpec (main : List String) : List Event → Nat → List Nat → Bool
  | [], _, _ => true
  | ev :: rest, k, seen =>
    match main.get? k with
    | none => false
    | some expected =>
      if ev.activity = expected ∧ ev.timestamp ∉ seen then
        scanSpec main rest (k + 1) (ev.timestamp :: seen)
      else false

/-- As long as the index cannot run past the end of `main`, the source scan
over the whole trace agrees with the spec scan over the considered events and
never raises. -/
lemma checkMainOrder_eq_scanSpec (main : List String) :
    ∀ (t : List Event) (count : Nat) (seen : List Nat),
      count + (t.filter (fun ev => decide (ev.activity ∈ main))).length ≤ main.length →
      checkMainOrder main t count seen =
        some (scanSpec main (t.filter (fun ev => decide (ev.activity ∈ main))) count seen) := by
  intro t
  induction t with
  | nil => intro count seen _; rfl
  | cons ev rest ih =>
    intro count seen hb
    by_cases hm : ev.activity ∈ main
    · have hflt : (ev :: rest).filter (fun ev => decide (ev.activity ∈ main)) =
          ev :: rest.filter (fun ev => decide (ev.activity ∈ main)) := by
        simp [List.filter_cons, hm]
      rw [hflt] at hb ⊢
      have hcount : count < main.length := by
        simp only [List.length_cons] at hb
        omega
      obtain ⟨expected, hexp⟩ : ∃ x, main.get? count = some x := by
        rw [List.get?_eq_get hcount]
        exact ⟨_, rfl⟩
      simp only [checkMainOrder, scanSpec, hm, if_true, hexp]
      by_cases hcond : ev.activity = expected ∧ ev.timestamp ∉ seen
      · have hnot : ¬(ev.activity ≠ expected ∨ ev.timestamp ∈ seen) := by
          push_neg
          exact ⟨hcond.1, hcond.2⟩
        rw [if_neg hnot, if_pos hcond]
        refine ih (count + 1) (ev.timestamp :: seen) ?_
        simp only [List.length_cons] at hb
        omega
      · have hor : ev.activity ≠ expected ∨ ev.timestamp ∈ seen := by
          by_contra hno
          push_neg at hno
          exact hcond ⟨hno.1, hno.2⟩
        rw [if_pos hor, if_neg hcond]
    · have hflt : (ev :: rest).filter (fun ev => decide (ev.activity ∈ main)) =
          rest.filter (fun ev => decide (ev.activity ∈ main)) := by
        simp [List.filter_cons, hm]
      rw [hflt] at hb
      simp only [checkMainOrder, hm, if_false]
      rw [hflt]
      exact ih count seen hb

/-- Index-wise reading of the spec scan: it accepts exactly when every
considered event matches the expected entry of `main` at its shifted
position, avoids the timestamps accumulated so far, and differs in timestamp
from every earlier considered event. -/
lemma scanSpec_eq_true_iff (main : List String) :
    ∀ (cs : List Event) (k : Nat) (seen : List Nat),
      scanSpec main cs k seen = true ↔
        ∀ i, i < cs.length →
          ((cs.get? i).map Event.activity = main.get? (k + i) ∧
           (∀ x ∈ seen, (cs.get? i).map Event.timestamp ≠ some x) ∧
           (∀ j, j < i →
             (cs.get? j).map Event.timestamp ≠ (cs.get? i).map Event.timestamp)) := by
  intro cs
  induction cs with
  | nil => intro k seen; simp [scanSpec]
  | cons ev rest ih =>
    intro k seen
    cases hk : main.get? k with
    | none =>
      simp only [scanSpec, hk]
      constructor
      · intro hfalse
        exact absurd hfalse (by simp)
      · intro h
        have h0 := (h 0 (by simp)).1
        rw [Nat.add_zero, hk] at h0
        exact absurd h0 (by simp)
    | some expected =>
      simp only [scanSpec, hk]
      by_cases hcond : ev.activity = expected ∧ ev.timestamp ∉ seen
      · rw [if_pos hcond, ih (k + 1) (ev.timestamp :: seen)]
        constructor
        · intro hr i hi
          cases i with
          | zero =>
            refine ⟨by rw [Nat.add_zero, hk]; simp [hcond.1], ?_, by intro j hj; omega⟩
            intro x hx heq
            simp only [List.get?_cons_zero, Option.map_some'] at heq
            exact hcond.2 (by rw [Option.some_inj.mp heq]; exact hx)
          | succ i2 =>
            have hi2 : i2 < rest.length := by simpa using hi
            obtain ⟨ha, hs, hd⟩ := hr i2 hi2
            have hidx : k + (i2 + 1) = (k + 1) + i2 := by omega
            refine ⟨by simpa [hidx] using ha, ?_, ?_⟩
            · intro x hx
              exact hs x (by simp [hx])
            · intro j hj
              cases j with
              | zero =>
                have hne := hs ev.timestamp (by simp)
                intro heq
                simp only [List.get?_cons_zero, List.get?_cons_succ,
                  Option.map_some'] at heq
                exact hne heq.symm
              | succ j2 =>
                have hj2 : j2 < i2 := by omega
                simpa using hd j2 hj2
        · intro hall i hi
          obtain ⟨ha, hs, hd⟩ := hall (i + 1) (by simpa using hi)
          have hidx : k + (i + 1) = (k + 1) + i := by omega
          refine ⟨by simpa [hidx] using ha, ?_, ?_⟩
          · intro x hx
            rcases List.mem_cons.mp hx with rfl | hx2
            · have hne := hd 0 (by omega)
              intro heq
              simp only [List.get?_cons_zero, List.get?_cons_succ,
                Option.map_some'] at hne
              exact hne (by simpa using heq.symm)
            · exact hs x hx2
          · intro j hj
            have := hd (j + 1) (by omega)
            simpa using this
      · rw [if_neg hcond]
        constructor
        · intro hfalse
          exact absurd hfalse (by simp)
        · intro h
          obtain ⟨ha, hs, _⟩ := h 0 (by simp)
          rw [Nat.add_zero, hk] at ha
          have ha2 : ev.activity = expected := by simpa using ha
          have hb2 : ev.timestamp ∉ seen := fun hmem => hs ev.timestamp hmem (by simp)
          exact absurd ⟨ha2, hb2⟩ hcond

/-- The claim's indexed formulation of a valid trace coincides with the spec
scan started at index zero with no seen timestamps. -/
lemma incorrectTraceSpecKeep_eq_scanSpec (main : List String) (t : Trace) :
    incorrectTraceSpecKeep main t =
      scanSpec main (t.filter (fun ev => decide (ev.activity ∈ main))) 0 [] := by
  have hiff : incorrectTraceSpecKeep main t = true ↔
      scanSpec main (t.filter (fun ev => decide (ev.activity ∈ main))) 0 [] = true := by
    rw [scanSpec_eq_true_iff]
    unfold incorrectTraceSpecKeep
    simp only [List.all_eq_true, List.mem_range, Bool.and_eq_true, decide_eq_true_eq]
    constructor
    · intro h i hi
      obtain ⟨ha, hd⟩ := h i hi
      refine ⟨by simpa using ha, by simp, ?_⟩
      intro j hj
      have := hd j (by simpa using hj)
      simpa using this
    · intro h i hi
      obtain ⟨ha, _, hd⟩ := h i hi
      refine ⟨by simpa using ha, ?_⟩
      intro j hj
      have := hd j (by simpa using hj)
      simpa using this
  cases h1 : incorrectTraceSpecKeep main t <;>
    cases h2 : scanSpec main (t.filter (fun ev => decide (ev.activity ∈ main))) 0 [] <;>
    simp_all

/-- C1 (amended): when every trace holds at most as many considered events as
there are main achievements, the sequence validator succeeds and keeps
exactly the traces whose considered events follow `main` in order with
pairwise distinct timestamps; without that bound the source can instead fail
with an IndexError, as the counterexample shows. -/
theorem c1_sequence_validator_amended (log : EventLog) (main : List String)
    (_hne : main ≠ [])
    (hbound : ∀ t ∈ log,
      (t.filter (fun ev => decide (ev.activity ∈ main))).length ≤ main.length) :
    filter_incorrect_traces log main = some (log.filter (incorrectTraceSpecKeep main)) := by
  induction log with
  | nil => rfl
  | cons t rest ih =>
    have hch : checkMainOrder main t 0 [] = some (incorrectTraceSpecKeep main t) := by
      rw [incorrectTraceSpecKeep_eq_scanSpec]
      exact checkMainOrder_eq_scanSpec main t 0 [] (by simpa using hbound t (by simp))
    have hrest := ih (fun t2 ht2 => hbound t2 (by simp [ht2]))
    simp only [filter_incorrect_traces, hch, hrest, Option.map_some', List.filter_cons]

def c1CexTrace : Trace :=
  [⟨"Red", 1, "p"⟩, ⟨"Green", 2, "p"⟩, ⟨"Blue", 3, "p"⟩,
   ⟨"Yellow", 4, "p"⟩, ⟨"The End", 5, "p"⟩, ⟨"Red", 6, "p"⟩]

/-- C1 counterexample to the claim as stated: on a GRIS trace that passes all
five main achievements in order with distinct timestamps and then repeats a
main achievement, the source raises an IndexError (no log is returned at
all), while the claimed keep-iff rule would discard the trace and return the
empty log. -/
theorem c1_counterexample :
    filter_incorrect_traces [c1CexTrace] Game.GRIS.main_achievements = none ∧
    [c1CexTrace].filter (incorrectTraceSpecKeep Game.GRIS.main_achievements) = [] := by
  decide

def c1OkTrace : Trace := [⟨"Red", 1, "p"⟩, ⟨"X", 2, "p"⟩, ⟨"Green", 3, "p"⟩]

def c1BadTrace : Trace := [⟨"Green", 1, "q"⟩]

/-- Concrete instance of amended C1 on GRIS: a prefix-respecting trace with an
interleaved non-progress event is kept, a trace starting at the second main
achievement is discarded. -/
theorem c1_sequence_validator_amended_witness :
    filter_incorrect_traces [c1OkTrace, c1BadTrace] Game.GRIS.main_achievements =
      some [c1OkTrace] := by
  refine (c1_sequence_validator_amended [c1OkTrace, c1BadTrace] Game.GRIS.main_achievements
    (by decide) (by decide)).trans ?_
  decide

/-- First-of-two options, used to state the fold characterization of the
end-timestamp dictionary. -/
def optOr (o fallback : Option Nat) : Option Nat :=
  match o with
  | some v => some v
  | none => fallback

/-- Looking a case up in the folded end-timestamp record returns the
timestamp of the last end-achievement event of that case, falling back to
the initial accumulator when the case never finished. -/
lemma lookup_foldl_endtimes (endAch : String) :
    ∀ (stream : List Event) (m : List (String × Nat)) (c : String),
      List.lookup c (stream.foldl
          (fun m2 ev =>
            if ev.activity = endAch then (ev.caseId, ev.timestamp) :: m2 else m2) m) =
        optOr (lastEndTimestamp endAch stream c) (List.lookup c m) := by
  intro stream
  induction stream using List.reverseRecOn with
  | nil => intro m c; simp [lastEndTimestamp, optOr]
  | append_singleton init ev ih =>
    intro m c
    rw [List.foldl_append]
    simp only [List.foldl_cons, List.foldl_nil]
    by_cases ha : ev.activity = endAch
    · rw [if_pos ha]
      by_cases hc : ev.caseId = c
      · have hlook : List.lookup c
            ((ev.caseId, ev.timestamp) :: init.foldl
              (fun m2 e2 =>
                if e2.activity = endAch then (e2.caseId, e2.timestamp) :: m2 else m2) m) =
            some ev.timestamp := by
          simp [List.lookup, hc.symm]
        rw [hlook]
        unfold lastEndTimestamp
        rw [List.filter_append]
        have hpred : ([ev].filter
            (fun e2 => decide (e2.activity = endAch ∧ e2.caseId = c))) = [ev] := by
          simp [ha, hc]
        rw [hpred, List.getLast?_concat]
        rfl
      · have hlook : List.lookup c
            ((ev.caseId, ev.timestamp) :: init.foldl
              (fun m2 e2 =>
                if e2.activity = endAch then (e2.caseId, e2.timestamp) :: m2 else m2) m) =
            List.lookup c (init.foldl
              (fun m2 e2 =>
                if e2.activity = endAch then (e2.caseId, e2.timestamp) :: m2 else m2) m) := by
          have hbeq : (c == ev.caseId) = false := beq_eq_false_iff_ne.mpr (Ne.symm hc)
          simp [List.lookup, hbeq]
        rw [hlook, ih]
        unfold lastEndTimestamp
        rw [List.filter_append]
        have hpred : ([ev].filter
            (fun e2 => decide (e2.activity = endAch ∧ e2.caseId = c))) = [] := by
          simp [hc]
        rw [hpred, List.append_nil]
    · rw [if_neg ha, ih]
      unfold lastEndTimestamp
      rw [List.filter_append]
      have hpred : ([ev].filter
          (fun e2 => decide (e2.activity = endAch ∧ e2.caseId = c))) = [] := by
        simp [ha]
      rw [hpred, List.append_nil]

/-- The dictionary built by the source records, for every case, the timestamp
of its last end-achievement event in the stream. -/
lemma lookup_buildEndTimes (endAch : String) (stream : List Event) (c : String) :
    List.lookup c (buildEndTimes endAch stream) = lastEndTimestamp endAch stream c := by
  unfold buildEndTimes
  rw [lookup_foldl_endtimes]
  cases lastEndTimestamp endAch stream c <;> simp [optOr]

/-- The stream filtering fails exactly when some event's case was never
recorded in the end-timestamp dictionary. -/
lemma keepBeforeEnd_eq_none_iff (m : List (String × Nat)) :
    ∀ stream : List Event,
      keepBeforeEnd m stream = none ↔ ∃ ev ∈ stream, List.lookup ev.caseId m = none := by
  intro stream
  induction stream with
  | nil => simp [keepBeforeEnd]
  | cons ev rest ih =>
    cases hl : List.lookup ev.caseId m with
    | none =>
      simp only [keepBeforeEnd, hl]
      constructor
      · intro _
        exact ⟨ev, by simp, hl⟩
      · intro _
        trivial
    | some tEnd =>
      simp only [keepBeforeEnd, hl]
      rw [Option.map_eq_none', ih]
      constructor
      · intro ⟨e2, he2, hn⟩
        exact ⟨e2, by simp [he2], hn⟩
      · intro ⟨e2, he2, hn⟩
        rcases List.mem_cons.mp he2 with rfl | he3
        · rw [hl] at hn
          exact absurd hn (by simp)
        · exact ⟨e2, he3, hn⟩

/-- When every event's case is recorded, the stream filtering succeeds and
keeps exactly the events whose timestamp is at most the recorded end
timestamp of their case. -/
lemma keepBeforeEnd_eq_filter (m : List (String × Nat)) :
    ∀ stream : List Event,
      (∀ ev ∈ stream, (List.lookup ev.caseId m).isSome) →
      keepBeforeEnd m stream =
        some (stream.filter (fun ev =>
          (List.lookup ev.caseId m).any (fun tEnd => decide (ev.timestamp ≤ tEnd)))) := by
  intro stream
  induction stream with
  | nil => intro _; rfl
  | cons ev rest ih =>
    intro h
    have hev := h ev (by simp)
    obtain ⟨tEnd, hl⟩ := Option.isSome_iff_exists.mp hev
    have hrec := ih (fun e2 he2 => h e2 (by simp [he2]))
    simp only [keepBeforeEnd, hl, hrec, Option.map_some', List.filter_cons]
    by_cases hle : ev.timestamp ≤ tEnd
    · simp [hl, hle]
    · simp [hl, hle]

/-- C9: whenever the first-playthrough truncation returns a result, that
result keeps exactly the events whose timestamp is at most the timestamp of
the LAST end-achievement occurrence of their case: each later occurrence
overwrote the per-case record, so events after an earlier end occurrence but
not after the last one are retained. -/
theorem c9_last_end_occurrence (log : EventLog) (endAch : String) (out : List Event)
    (h : filter_achievements_by_first_playthrough log endAch = some out) :
    out = log.flatten.filter (fun ev =>
      (lastEndTimestamp endAch log.flatten ev.caseId).any
        (fun tEnd => decide (ev.timestamp ≤ tEnd))) := by
  unfold filter_achievements_by_first_playthrough at h
  have hsome : ∀ ev ∈ log.flatten,
      (List.lookup ev.caseId (buildEndTimes endAch log.flatten)).isSome := by
    intro ev hev
    by_contra hns
    have hnone : List.lookup ev.caseId (buildEndTimes endAch log.flatten) = none :=
      Option.not_isSome_iff_eq_none.mp hns
    rw [(keepBeforeEnd_eq_none_iff _ _).mpr ⟨ev, hev, hnone⟩] at h
    exact absurd h (by simp)
  rw [keepBeforeEnd_eq_filter _ _ hsome] at h
  have hout := Option.some_inj.mp h
  rw [← hout]
  apply List.filter_congr
  intro ev _
  rw [lookup_buildEndTimes]

def c9WitLog : EventLog :=
  [[⟨"E", 5, "c"⟩, ⟨"X", 7, "c"⟩, ⟨"E", 10, "c"⟩, ⟨"Y", 12, "c"⟩]]

/-- Concrete instance of C9: with end occurrences at times 5 and 10, the
event at time 7 (after the first occurrence) is retained and only the event
at time 12 (after the last occurrence) is dropped. -/
theorem c9_last_end_occurrence_witness :
    [(⟨"E", 5, "c"⟩ : Event), ⟨"X", 7, "c"⟩, ⟨"E", 10, "c"⟩] =
      c9WitLog.flatten.filter (fun ev =>
        (lastEndTimestamp "E" c9WitLog.flatten ev.caseId).any
          (fun tEnd => decide (ev.timestamp ≤ tEnd))) :=
  c9_last_end_occurrence c9WitLog "E" _ (by decide)

/-- C5 (amended): under the data-model invariant that all events of a trace
share its case id, (1) when every trace contains the end achievement the
truncation succeeds and keeps exactly the events whose timestamp is at most
the recorded (last) end timestamp of their case — the boundary event itself
retained, strictly later events dropped; and (2) when, case ids also being
distinct across traces, some trace with at least one event lacks the end
achievement, the call fails with the missing-key error.  A trace with no
events lacks the end achievement yet triggers no failure, refuting the
unrestricted claim. -/
theorem c5_first_playthrough_amended (log : EventLog) (endAch : String)
    (hUniform : ∀ t ∈ log, ∀ e1 ∈ t, ∀ e2 ∈ t, Event.caseId e1 = Event.caseId e2) :
    ((∀ t ∈ log, ∃ ev ∈ t, ev.activity = endAch) →
      filter_achievements_by_first_playthrough log endAch =
        some (log.flatten.filter (fun ev =>
          (lastEndTimestamp endAch log.flatten ev.caseId).any
            (fun tEnd => decide (ev.timestamp ≤ tEnd))))) ∧
    ((∀ t1 ∈ log, ∀ t2 ∈ log, ∀ e1 ∈ t1, ∀ e2 ∈ t2, e1.caseId = e2.caseId → t1 = t2) →
      (∃ t ∈ log, t ≠ [] ∧ ∀ ev ∈ t, ev.activity ≠ endAch) →
      filter_achievements_by_first_playthrough log endAch = none) := by
  constructor
  · intro hEnd
    unfold filter_achievements_by_first_playthrough
    have hsome : ∀ ev ∈ log.flatten,
        (List.lookup ev.caseId (buildEndTimes endAch log.flatten)).isSome := by
      intro ev hev
      rw [lookup_buildEndTimes]
      obtain ⟨t, ht, hevt⟩ := List.mem_flatten.mp hev
      obtain ⟨ev0, hev0, hact⟩ := hEnd t ht
      have hcase : ev0.caseId = ev.caseId := hUniform t ht ev0 hev0 ev hevt
      have hmem : ev0 ∈ log.flatten.filter
          (fun e2 => decide (e2.activity = endAch ∧ e2.caseId = ev.caseId)) := by
        rw [List.mem_filter]
        exact ⟨List.mem_flatten.mpr ⟨t, ht, hev0⟩, by simp [hact, hcase]⟩
      unfold lastEndTimestamp
      rw [Option.isSome_map']
      rw [List.getLast?_isSome]
      exact List.ne_nil_of_mem hmem
    rw [keepBeforeEnd_eq_filter _ _ hsome]
    congr 1
    apply List.filter_congr
    intro ev _
    rw [lookup_buildEndTimes]
  · intro hDistinct hLack
    obtain ⟨t, ht, htne, hnoend⟩ := hLack
    obtain ⟨ev0, hev0⟩ : ∃ e, e ∈ t := by
      cases t with
      | nil => exact absurd rfl htne
      | cons a r => exact ⟨a, by simp⟩
    unfold filter_achievements_by_first_playthrough
    rw [keepBeforeEnd_eq_none_iff]
    refine ⟨ev0, List.mem_flatten.mpr ⟨t, ht, hev0⟩, ?_⟩
    rw [lookup_buildEndTimes]
    unfold lastEndTimestamp
    have hfil : log.flatten.filter
        (fun e2 => decide (e2.activity = endAch ∧ e2.caseId = ev0.caseId)) = [] := by
      rw [List.filter_eq_nil_iff]
      intro e2 he2
      simp only [decide_eq_true_eq]
      rintro ⟨hact, hcase⟩
      obtain ⟨t2, ht2, he2t⟩ := List.mem_flatten.mp he2
      have heq : t2 = t := hDistinct t2 ht2 t ht e2 he2t ev0 hev0 hcase
      exact hnoend e2 (heq ▸ he2t) hact
    rw [hfil]
    rfl

/-- C5 counterexample to the claim as stated: a log whose single trace is
empty lacks the end achievement (its end-filtered events are the empty list),
yet the call does not fail with a missing-key error — it returns an empty
result log. -/
theorem c5_counterexample :
    (([] : Trace).filter (fun ev => decide (ev.activity = "E")) = []) ∧
    filter_achievements_by_first_playthrough [([] : Trace)] "E" = some [] := by
  exact ⟨rfl, rfl⟩

def c5WitLog : EventLog := [[⟨"E", 5, "w"⟩, ⟨"X", 3, "w"⟩, ⟨"Y", 9, "w"⟩]]

def c5FailLog : EventLog := [[⟨"X", 3, "v"⟩]]

/-- Concrete instance of amended C5: with the end achievement at time 5, the
event at time 3 is retained together with the boundary event and the event at
time 9 is dropped; a nonempty trace without the end achievement makes the
call fail. -/
theorem c5_first_playthrough_amended_witness :
    filter_achievements_by_first_playthrough c5WitLog "E" =
      some [⟨"E", 5, "w"⟩, ⟨"X", 3, "w"⟩] ∧
    filter_achievements_by_first_playthrough c5FailLog "E" = none := by
  constructor
  · exact ((c5_first_playthrough_amended c5WitLog "E" (by decide)).1 (by decide)).trans
      (by decide)
  · exact (c5_first_playthrough_amended c5FailLog "E" (by decide)).2 (by decide) (by decide)
